import Mathlib

/-!
Verification of `src/Jordan/jordan.py` (Jordan canonical form via the Weyr
characteristic).  The program manipulates sympy matrices with exact integer
entries; we embed a matrix as its declared shape together with its rows of
integer entries.  The sympy primitives used by the program (`eye`, `zeros`,
scalar multiplication, subtraction, powers, `rank`, `row_join`, `col_join`)
are modelled below; `rank` (exact rank of an integer matrix) is realised by
fraction-free Gaussian elimination, which computes the rank over ℚ.

`row_join` and `col_join` raise `ShapeError` in sympy when the declared
shapes are incompatible; we model them in the `Except` monad (including
sympy's special case that a matrix with no columns / no rows joins with
anything).  The arithmetic primitives (`madd`, `msub`, `smul`, `mmul`,
`mpow`) are only ever applied by the program to operands of identical /
compatible square shapes, so they are modelled as total functions; their
shape fields always come from the same places sympy takes them.
-/

deriving instance DecidableEq for Except

/-- A sympy matrix: declared shape plus the list of rows of entries.  All
matrices the program builds are well formed (`Mat.WF`): `data` has `rows`
rows, each of length `cols`. -/
structure Mat where
  rows : ℕ
  cols : ℕ
  data : List (List ℤ)
deriving DecidableEq, Repr

namespace Mat

/-- Entry `(i, j)` of a matrix, with `0` as the out-of-range default. -/
def entry (M : Mat) (i j : ℕ) : ℤ := (M.data.getD i []).getD j 0

/-- Well-formedness: the entry rows match the declared shape. -/
def WF (M : Mat) : Prop :=
  M.data.length = M.rows ∧ ∀ r ∈ M.data, r.length = M.cols

instance (M : Mat) : Decidable M.WF := by
  unfold WF; infer_instance

/-- sympy `eye(n)`: the `n × n` identity matrix. -/
def eye (n : ℕ) : Mat :=
  ⟨n, n, (List.range n).map fun i => (List.range n).map fun j => if j = i then 1 else 0⟩

/-- sympy `zeros(r, c)`. -/
def zeros (r c : ℕ) : Mat := ⟨r, c, List.replicate r (List.replicate c 0)⟩

/-- Scalar multiplication `k * M` (sympy `eigenval*eye(n)`). -/
def smul (k : ℤ) (M : Mat) : Mat := ⟨M.rows, M.cols, M.data.map (List.map (k * ·))⟩

/-- Matrix addition.  sympy raises on mismatched shapes; the program only
adds matrices of the same square shape (`jordan_block`). -/
def madd (A B : Mat) : Mat :=
  ⟨A.rows, A.cols, List.zipWith (List.zipWith (· + ·)) A.data B.data⟩

/-- Matrix subtraction, same remark as `madd` (used only as `A - λ·I`). -/
def msub (A B : Mat) : Mat :=
  ⟨A.rows, A.cols, List.zipWith (List.zipWith (· - ·)) A.data B.data⟩

/-- Matrix product.  sympy raises unless `A.cols = B.rows`; the program only
multiplies square matrices of equal size (inside matrix powers). -/
def mmul (A B : Mat) : Mat :=
  ⟨A.rows, B.cols, A.data.map fun row =>
    (List.range B.cols).map fun j =>
      ((List.range A.cols).map fun k => row.getD k 0 * (B.data.getD k []).getD j 0).sum⟩

/-- Matrix power `M ** p` (sympy: `M ** 0` is the identity). -/
def mpow (M : Mat) : ℕ → Mat
  | 0 => eye M.rows
  | p + 1 => mmul (mpow M p) M

/-- One fraction-free elimination step: scale `row` by the pivot head and
subtract `row`'s head times the pivot, then drop the (now zero) head entry.
Scaling by the nonzero pivot head preserves the rank over ℚ. -/
def elimStep (pivot row : List ℤ) : List ℤ :=
  (List.zipWith (fun x y => pivot.headD 0 * x - row.headD 0 * y) row pivot).tail

/-- Select the first row with a nonzero leading entry; return it together
with the remaining rows in order. -/
def pivotSplit : List (List ℤ) → Option (List ℤ × List (List ℤ))
  | [] => none
  | r :: rest =>
    if r.headD 0 ≠ 0 then some (r, rest)
    else match pivotSplit rest with
      | some (p, others) => some (p, r :: others)
      | none => none

/-- Rank by Gaussian elimination, recursing over the column count: if the
first column is zero the rank is that of the remaining columns, otherwise
eliminate with a pivot row and add one. -/
def rankAux : ℕ → List (List ℤ) → ℕ
  | 0, _ => 0
  | w + 1, rws =>
    match pivotSplit rws with
    | none => rankAux w (rws.map List.tail)
    | some (p, rest) => rankAux w (rest.map (elimStep p)) + 1

/-- sympy `M.rank()`: exact rank of the matrix. -/
def rank (M : Mat) : ℕ := rankAux M.cols M.data

/-- sympy `A.row_join(B)` (horizontal concatenation).  A matrix with no
columns joins with anything (sympy issue 10770 special case); otherwise the
row counts must agree, else `ShapeError`. -/
def row_join (A B : Mat) : Except String Mat :=
  if A.cols = 0 ∧ A.rows ≠ B.rows then
    Except.ok ⟨B.rows, B.cols, List.zipWith (· ++ ·) (List.replicate B.rows ([] : List ℤ)) B.data⟩
  else if A.rows = B.rows then
    Except.ok ⟨A.rows, A.cols + B.cols, List.zipWith (· ++ ·) A.data B.data⟩
  else
    Except.error "ShapeError"

/-- sympy `A.col_join(B)` (vertical concatenation), dual to `row_join`. -/
def col_join (A B : Mat) : Except String Mat :=
  if A.rows = 0 ∧ A.cols ≠ B.cols then
    Except.ok ⟨B.rows, B.cols, B.data⟩
  else if A.cols = B.cols then
    Except.ok ⟨A.rows + B.rows, A.cols, A.data ++ B.data⟩
  else
    Except.error "ShapeError"

/-- sympy `Matrix(l)` on a flat list: the column vector with entries `l`
(`Matrix([])` is the `0 × 0` matrix). -/
def colVec (l : List ℤ) : Mat :=
  if l.isEmpty then ⟨0, 0, []⟩ else ⟨l.length, 1, l.map fun x => [x]⟩

end Mat

/-! ## The source functions of `src/Jordan/jordan.py` -/

/-- The rank called on each loop iteration of `stabilize_ranks`:
`((A - eigenval*eye(A.shape[0])) ** p).rank()`. -/
def rank_of_power (A : Mat) (e : ℤ) (p : ℕ) : ℕ :=
  ((A.msub (Mat.smul e (Mat.eye A.rows))).mpow p).rank

/-- The loop body of `stabilize_ranks`, with explicit fuel standing for the
unbounded Python `while True`: append `rk p` to the record, return the
record once the new rank equals the previous one (`rank == r[p-1] and
p != 0`; at `p = 0` Python's `r[-1]` is the element just appended, which is
also what `getD (p-1)` reads on the singleton record). -/
def stabilize_aux (rk : ℕ → ℕ) : ℕ → ℕ → List ℕ → Option (List ℕ)
  | 0, _, _ => none
  | fuel + 1, p, r =>
    let rank := rk p
    let r' := r ++ [rank]
    if p ≠ 0 ∧ rank = r'.getD (p - 1) 0 then some r'
    else stabilize_aux rk fuel (p + 1) r'

/-- `stabilize_ranks(A, eigenval)`: record of `rank((A-eigenval*I)**p)` for
`p = 0, 1, 2, …` until two consecutive ranks agree.  `none` means the fuel
ran out before stabilization (the Python loop would still be running). -/
def stabilize_ranks (A : Mat) (e : ℤ) (fuel : ℕ) : Option (List ℕ) :=
  stabilize_aux (rank_of_power A e) fuel 0 []

/-- `weyr(r)`: successive differences `r[p-1] - r[p]` for `p = 1..len(r)-1`,
then a trailing `0` sentinel. -/
def weyr (r : List ℤ) : List ℤ :=
  (List.zipWith (· - ·) r r.tail) ++ [0]

/-- `concat_vec(v)`: `v[0]` row-joined with the remaining vectors in order
(`IndexError` on the empty list, which never occurs in the program). -/
def concat_vec : List Mat → Except String Mat
  | [] => Except.error "IndexError"
  | M :: rest => rest.foldlM Mat.row_join M

/-- The column `v_i` built inside `get_super`: `[0]*n` with a `1` written at
position `i`. -/
def super_col (n i : ℕ) : List ℤ :=
  (List.replicate n (0 : ℤ)).set i 1

/-- `get_super(n)`: the `n × n` matrix with `1` on the superdiagonal,
assembled column by column (a zero column, then the standard basis columns
`e_0 … e_{n-2}`). -/
def get_super (n : ℕ) : Except String Mat :=
  concat_vec (Mat.colVec (List.replicate n 0) ::
    (List.range (n - 1)).map fun i => Mat.colVec (super_col n i))

/-- `direct_summand(A, B)`: builds `[[A, 0], [0, B]]` via `row_join` /
`col_join`.  Note the source's `upper_zero = zeros(A.shape[1], B.shape[0])`
(column count of `A`, row count of `B`). -/
def direct_summand (A B : Mat) : Except String Mat := do
  let lower_zero := Mat.zeros B.rows A.cols
  let upper_zero := Mat.zeros A.cols B.rows
  let upper ← A.row_join upper_zero
  let lower ← lower_zero.row_join B
  upper.col_join lower

/-- `many_summand(ml)`: the direct sum of all matrices in the list; a
singleton is returned unchanged and the empty list yields Python's bare
`return`, i.e. `None`. -/
def many_summand : List Mat → Except String (Option Mat)
  | [] => Except.ok none
  | [m] => Except.ok (some m)
  | a :: b :: rest => do
    let M ← direct_summand a b
    let M ← rest.foldlM direct_summand M
    Except.ok (some M)

/-- `jordan_block(eigenval, n) = eigenval*eye(n) + get_super(n)`. -/
def jordan_block (e : ℤ) (n : ℕ) : Except String Mat := do
  let S ← get_super n
  Except.ok (Mat.madd (Mat.smul e (Mat.eye n)) S)

/-- The `block_info` list of `create_blocks`: differences
`weyr[i-1] - weyr[i]` for `i = 1..len(weyr)-1`. -/
def block_info_of (w : List ℤ) : List ℤ :=
  List.zipWith (· - ·) w w.tail

/-- The `blocks` list of `create_blocks`: for each index of `block_info` in
reversed order, when the count is positive append that many Jordan blocks of
size `index + 1`; non-positive counts are skipped. -/
def blocks_of (w : List ℤ) (e : ℤ) : Except String (List Mat) :=
  (List.range (block_info_of w).length).reverse.foldlM
    (fun acc i =>
      if 0 < (block_info_of w).getD i 0 then
        (jordan_block e (i + 1)).map
          fun b => acc ++ List.replicate ((block_info_of w).getD i 0).toNat b
      else Except.ok acc)
    []

/-- `create_blocks(weyr, eigenval)`: the direct sum of the created blocks
(`none` when no block was created: `many_summand([])` returns `None`). -/
def create_blocks (w : List ℤ) (e : ℤ) : Except String (Option Mat) := do
  let bs ← blocks_of w e
  many_summand bs

/-- Turn a list of optional matrices into a list of matrices when no `None`
is present (used to model Python's crash when `direct_summand` receives
`None` inside `jordan_form`'s final `many_summand`). -/
def allSome : List (Option Mat) → Option (List Mat)
  | [] => some []
  | none :: _ => none
  | some m :: rest => (allSome rest).map (m :: ·)

/-- `jordan_form(A)`: per eigenvalue, rank stabilization → Weyr
characteristic → block creation, then the direct sum of the per-eigenvalue
results.  The eigenvalue enumeration (`A.eigenvals()`, an external sympy
solver) is passed in as `vals`; `fuel` bounds the unbounded stabilization
loop.  `blocks[0]` on an empty list is Python's `IndexError`; feeding a
`None` block into the final `many_summand` is Python's `AttributeError`. -/
def jordan_form (A : Mat) (vals : List ℤ) (fuel : ℕ) : Except String (Option Mat) := do
  let blocks ← vals.mapM fun e =>
    match stabilize_ranks A e fuel with
    | none => Except.error "Diverges"
    | some r => create_blocks (weyr (r.map Int.ofNat)) e
  if blocks.length > 1 then
    match allSome blocks with
    | some ms => many_summand ms
    | none => Except.error "AttributeError"
  else
    match blocks with
    | [b] => Except.ok b
    | _ => Except.error "IndexError"

/-! ## List helpers -/

lemma getD_map_range {α : Type} (f : ℕ → α) (d : α) {n i : ℕ} (h : i < n) :
    ((List.range n).map f).getD i d = f i := by
  rw [List.getD_eq_getElem _ _ (by simpa using h)]
  simp

lemma sum_map_range {M : Type} [AddCommMonoid M] (f : ℕ → M) (n : ℕ) :
    ((List.range n).map f).sum = ∑ i in Finset.range n, f i := by
  induction n with
  | zero => simp
  | succ n ih =>
    rw [List.range_succ, List.map_append, List.sum_append, ih, Finset.sum_range_succ]
    simp

/-! ## Properties of the rank-stabilization loop -/

/-- Any record returned by the loop is the trace `[rk 0, …, rk q]` of the
rank oracle up to some stopping power `q ≥ 1` with `rk q = rk (q-1)`. -/
lemma stab_aux_sound (rk : ℕ → ℕ) :
    ∀ (fuel p : ℕ) (r : List ℕ),
      stabilize_aux rk fuel p ((List.range p).map rk) = some r →
      ∃ q, p ≤ q ∧ r = (List.range (q + 1)).map rk ∧ 1 ≤ q ∧ rk q = rk (q - 1) := by
  intro fuel
  induction fuel with
  | zero => intro p r h; simp [stabilize_aux] at h
  | succ fuel ih =>
    intro p r h
    have hstep : ((List.range p).map rk) ++ [rk p] = (List.range (p + 1)).map rk := by
      rw [List.range_succ, List.map_append]; rfl
    rw [stabilize_aux] at h
    simp only [hstep] at h
    by_cases hc : p ≠ 0 ∧ rk p = ((List.range (p + 1)).map rk).getD (p - 1) 0
    · rw [if_pos hc] at h
      refine ⟨p, le_refl p, (Option.some_injective _ h).symm, Nat.one_le_iff_ne_zero.2 hc.1, ?_⟩
      have := hc.2
      rwa [getD_map_range rk 0 (by omega)] at this
    · rw [if_neg hc] at h
      obtain ⟨q, hq1, hq2⟩ := ih (p + 1) r h
      exact ⟨q, by omega, hq2⟩

/-- If `q` is the first power (at or after the current one) where two
consecutive ranks agree, and the fuel reaches it, the loop returns the trace
up to `q`. -/
lemma stab_aux_runs (rk : ℕ → ℕ) :
    ∀ (fuel p q : ℕ), p ≤ q → q < p + fuel → 1 ≤ q → rk q = rk (q - 1) →
      (∀ j, p ≤ j → j < q → ¬(1 ≤ j ∧ rk j = rk (j - 1))) →
      stabilize_aux rk fuel p ((List.range p).map rk) =
        some ((List.range (q + 1)).map rk) := by
  intro fuel
  induction fuel with
  | zero => intro p q h1 h2; omega
  | succ fuel ih =>
    intro p q hpq hfuel hq1 hq2 hmin
    have hstep : ((List.range p).map rk) ++ [rk p] = (List.range (p + 1)).map rk := by
      rw [List.range_succ, List.map_append]; rfl
    rw [stabilize_aux]
    simp only [hstep]
    rcases eq_or_lt_of_le hpq with heq | hlt
    · subst heq
      rw [if_pos ⟨by omega, by rw [getD_map_range rk 0 (by omega)]; exact hq2⟩]
    · have hguard : ¬(p ≠ 0 ∧ rk p = ((List.range (p + 1)).map rk).getD (p - 1) 0) := by
        rcases Nat.eq_zero_or_pos p with h0 | h0
        · simp [h0]
        · rw [getD_map_range rk 0 (by omega)]
          intro hc
          exact hmin p (le_refl p) hlt ⟨h0, hc.2⟩
      rw [if_neg hguard]
      exact ih (p + 1) q hlt (by omega) hq1 hq2 (fun j hj1 hj2 => hmin j (by omega) hj2)

/-- A non-increasing rank oracle must repeat within its first `rk 0 + 1`
steps: otherwise it would decrease below `0`. -/
lemma exists_first_stop (rk : ℕ → ℕ) (h1 : ∀ p, rk (p + 1) ≤ rk p) :
    ∃ q, 1 ≤ q ∧ q ≤ rk 0 + 1 ∧ rk q = rk (q - 1) ∧
      ∀ j, j < q → ¬(1 ≤ j ∧ rk j = rk (j - 1)) := by
  have desc : ∀ m, (∀ j, 1 ≤ j → j ≤ m → rk j ≠ rk (j - 1)) → rk m + m ≤ rk 0 := by
    intro m
    induction m with
    | zero => intro _; omega
    | succ m ihm =>
      intro hne
      have hm : rk m + m ≤ rk 0 := ihm (fun j hj1 hj2 => hne j hj1 (by omega))
      have hlt : rk (m + 1) ≠ rk m := by
        have := hne (m + 1) (by omega) (le_refl _)
        simpa using this
      have := h1 m
      omega
  have hstop : ∃ j, 1 ≤ j ∧ j ≤ rk 0 + 1 ∧ rk j = rk (j - 1) := by
    by_contra hno
    push_neg at hno
    have := desc (rk 0 + 1) (fun j hj1 hj2 => hno j hj1 hj2)
    omega
  classical
  obtain ⟨j0, hj0⟩ := hstop
  have hPex : ∃ q, 1 ≤ q ∧ rk q = rk (q - 1) := ⟨j0, hj0.1, hj0.2.2⟩
  let q := Nat.find hPex
  refine ⟨q, (Nat.find_spec hPex).1, ?_, (Nat.find_spec hPex).2, ?_⟩
  · exact le_trans (Nat.find_le ⟨hj0.1, hj0.2.2⟩) hj0.2.1
  · intro j hj hcon
    exact Nat.find_min hPex hj hcon

/-- C2: for a non-increasing rank sequence (the mathematical behaviour of
`rank((A-λI)^p)` for any matrix, in particular any actual eigenvalue λ of
A), `stabilize_ranks` terminates: two consecutive equal ranks occur within
`rank((A-λI)^0) + 1` steps, so any fuel of at least `rank((A-λI)^0) + 2`
iterations makes the loop return. -/
theorem stabilize_ranks_terminates (A : Mat) (e : ℤ)
    (h1 : ∀ p, rank_of_power A e (p + 1) ≤ rank_of_power A e p) :
    ∀ fuel, rank_of_power A e 0 + 2 ≤ fuel → ∃ r, stabilize_ranks A e fuel = some r := by
  intro fuel hfuel
  obtain ⟨q, hq1, hq2, hq3, hq4⟩ := exists_first_stop (rank_of_power A e) h1
  refine ⟨(List.range (q + 1)).map (rank_of_power A e), ?_⟩
  have : ((List.range 0).map (rank_of_power A e)) = ([] : List ℕ) := by simp
  rw [stabilize_ranks, ← this]
  exact stab_aux_runs (rank_of_power A e) fuel 0 q (by omega) (by omega) hq1 hq3
    (fun j _ hj2 => hq4 j hj2)

/-- The matrix `[[5]]` with its sole eigenvalue `5`, used as the concrete
input of several witnesses. -/
def A5 : Mat := ⟨1, 1, [[5]]⟩

/-- Powers of the `1 × 1` zero matrix `A5 - 5·I`. -/
lemma mpow_A5 : ∀ p, Mat.mpow ⟨1, 1, [[0]]⟩ (p + 1) = ⟨1, 1, [[0]]⟩ := by
  intro p
  induction p with
  | zero => decide
  | succ p ih => rw [Mat.mpow, ih]; decide

/-- The rank sequence of `A5` at eigenvalue `5` is `1, 0, 0, …`. -/
lemma rank_of_power_A5 : ∀ p, rank_of_power A5 5 p = if p = 0 then 1 else 0 := by
  intro p
  cases p with
  | zero => decide
  | succ p =>
    have hz : A5.msub (Mat.smul 5 (Mat.eye A5.rows)) = ⟨1, 1, [[0]]⟩ := by decide
    rw [rank_of_power, hz, mpow_A5, if_neg (Nat.succ_ne_zero p)]
    decide

/-- The rank sequence of `A5` at eigenvalue `5` is non-increasing. -/
lemma rank_of_power_A5_mono : ∀ p, rank_of_power A5 5 (p + 1) ≤ rank_of_power A5 5 p := by
  intro p
  rw [rank_of_power_A5, rank_of_power_A5]
  cases p <;> simp

/-- Witness for C2 at `A = [[5]]`, `λ = 5`, fuel `3`. -/
theorem stabilize_ranks_terminates_witness :
    rank_of_power A5 5 0 + 2 ≤ 3 ∧ ∃ r, stabilize_ranks A5 5 3 = some r :=
  ⟨by decide, stabilize_ranks_terminates A5 5 rank_of_power_A5_mono 3 (by decide)⟩

/-- C7: whenever `stabilize_ranks(A, λ)` returns a record (with any fuel),
and the underlying rank sequence is non-increasing and starts at the
dimension `n` (true of genuine ranks, since `(A-λI)^0 = I_n`), the record is
non-empty, starts with `n`, and is non-increasing. -/
theorem stabilize_ranks_record_props (A : Mat) (e : ℤ) (n fuel : ℕ) (r : List ℕ)
    (h1 : ∀ p, rank_of_power A e (p + 1) ≤ rank_of_power A e p)
    (h0 : rank_of_power A e 0 = n)
    (hr : stabilize_ranks A e fuel = some r) :
    r ≠ [] ∧ r.getD 0 0 = n ∧
      ∀ i, i + 1 < r.length → r.getD (i + 1) 0 ≤ r.getD i 0 := by
  have h0' : ((List.range 0).map (rank_of_power A e)) = ([] : List ℕ) := by simp
  rw [stabilize_ranks, ← h0'] at hr
  obtain ⟨q, _, hq2, _, _⟩ := stab_aux_sound (rank_of_power A e) fuel 0 r hr
  subst hq2
  refine ⟨by simp, ?_, ?_⟩
  · rw [getD_map_range _ 0 (by omega)]; exact h0
  · intro i hi
    rw [List.length_map, List.length_range] at hi
    rw [getD_map_range _ 0 (by omega), getD_map_range _ 0 (by omega)]
    exact h1 i

/-- Witness for C7 at `A = [[5]]`, `λ = 5`, fuel `3`, record `[1, 0, 0]`. -/
theorem stabilize_ranks_record_props_witness :
    stabilize_ranks A5 5 3 = some [1, 0, 0] ∧
      ([1, 0, 0] : List ℕ) ≠ [] ∧ ([1, 0, 0] : List ℕ).getD 0 0 = 1 ∧
      ∀ i, i + 1 < ([1, 0, 0] : List ℕ).length →
        ([1, 0, 0] : List ℕ).getD (i + 1) 0 ≤ ([1, 0, 0] : List ℕ).getD i 0 :=
  ⟨by decide, stabilize_ranks_record_props A5 5 1 3 [1, 0, 0]
    rank_of_power_A5_mono (by decide) (by decide)⟩

/-! ## Closed form of `get_super` and `jordan_block` -/

lemma Mat.eq_of {A B : Mat} (h1 : A.rows = B.rows) (h2 : A.cols = B.cols)
    (h3 : A.data = B.data) : A = B := by
  cases A; cases B; cases h1; cases h2; cases h3; rfl

/-- The matrix `get_super n` evaluates to: `1` on the superdiagonal. -/
def superMat (n : ℕ) : Mat :=
  ⟨n, n, (List.range n).map fun i =>
    (List.range n).map fun j => if j = i + 1 then (1 : ℤ) else 0⟩

/-- The matrix `jordan_block e n` evaluates to: `e` on the diagonal, `1` on
the superdiagonal. -/
def jb (e : ℤ) (n : ℕ) : Mat :=
  ⟨n, n, (List.range n).map fun i =>
    (List.range n).map fun j => if j = i then e else if j = i + 1 then 1 else 0⟩

lemma super_col_length (n t : ℕ) : (super_col n t).length = n := by
  simp [super_col]

lemma super_col_getD (n t i : ℕ) (hi : i < n) :
    (super_col n t).getD i 0 = if i = t then 1 else 0 := by
  unfold super_col
  rcases lt_or_le t n with ht | ht
  · rw [List.getD_eq_getElem _ _ (by simp; omega), List.getElem_set]
    simp only [List.getElem_replicate]
    by_cases h : t = i
    · simp [h]
    · rw [if_neg h, if_neg (fun hh => h hh.symm)]
  · rw [List.set_eq_of_length_le (by simp; omega)]
    rw [List.getD_eq_getElem _ _ (by simp; omega), List.getElem_replicate]
    rw [if_neg (by omega)]

lemma data_eq_range_map (D : List (List ℤ)) {n : ℕ} (h : D.length = n) :
    D = (List.range n).map fun i => D.getD i [] := by
  apply List.ext_getElem (by simp [h])
  intro i h1 h2
  rw [List.getElem_map, List.getElem_range, List.getD_eq_getElem _ _ h1]

/-- Folding `row_join` over the columns appended by `get_super`. -/
lemma fold_row_join_cols (n : ℕ) (hn : 0 < n) :
    ∀ (ts : List ℕ) (M : Mat), M.rows = n → M.data.length = n →
      (ts.map fun t => Mat.colVec (super_col n t)).foldlM Mat.row_join M =
        Except.ok ⟨n, M.cols + ts.length,
          (List.range n).map fun i =>
            M.data.getD i [] ++ ts.map fun t => if i = t then (1 : ℤ) else 0⟩ := by
  intro ts
  induction ts with
  | nil =>
    intro M hM hMd
    simp only [List.map_nil, List.foldlM, pure, Except.pure, List.append_nil]
    refine congrArg Except.ok (Mat.eq_of hM (by simp) ?_)
    exact data_eq_range_map M.data hMd
  | cons t ts ih =>
    intro M hM hMd
    have hcol : Mat.colVec (super_col n t) =
        ⟨n, 1, (super_col n t).map fun x => [x]⟩ := by
      rw [Mat.colVec, if_neg (by simp [List.isEmpty_iff, ← List.length_pos, super_col_length]; omega)]
      simp [super_col_length]
    simp only [List.map_cons]
    show (Mat.row_join M (Mat.colVec (super_col n t)) >>= fun b =>
      (ts.map fun s => Mat.colVec (super_col n s)).foldlM Mat.row_join b) = _
    rw [hcol, Mat.row_join]
    rw [if_neg (by simp [hM]), if_pos (by simp [hM])]
    have hbind : ∀ (x : Mat) (f : Mat → Except String Mat), (Except.ok x >>= f) = f x := by
      intro x f; rfl
    rw [hbind]
    have hM'd : (List.zipWith (· ++ ·) M.data ((super_col n t).map fun x => [x])).length = n := by
      simp [List.length_zipWith, super_col_length, hMd]
    rw [ih ⟨M.rows, M.cols + 1, List.zipWith (· ++ ·) M.data ((super_col n t).map fun x => [x])⟩
      (by simpa using hM) (by simpa using hM'd)]
    refine congrArg Except.ok (Mat.eq_of rfl (by simp; omega) ?_)
    apply List.ext_getElem (by simp)
    intro i h1 h2
    simp only [List.getElem_map, List.getElem_range]
    have hi : i < n := by simpa using h1
    have hrow : (List.zipWith (· ++ ·) M.data ((super_col n t).map fun x => [x])).getD i [] =
        M.data.getD i [] ++ [(super_col n t).getD i 0] := by
      rw [List.getD_eq_getElem _ _ (by rw [hM'd]; exact hi)]
      rw [List.getElem_zipWith]
      congr 1
      · rw [List.getD_eq_getElem _ _ (by omega)]
      · rw [List.getElem_map, List.getD_eq_getElem _ _ (by rw [super_col_length]; exact hi)]
    rw [hrow, List.append_assoc, super_col_getD n t i hi]
    rfl

/-- `get_super n` always succeeds, with value the superdiagonal matrix. -/
lemma get_super_eq (n : ℕ) : get_super n = Except.ok (superMat n) := by
  cases n with
  | zero => decide
  | succ m =>
    rw [get_super, concat_vec]
    have hM0 : Mat.colVec (List.replicate (m + 1) (0 : ℤ)) =
        ⟨m + 1, 1, List.replicate (m + 1) [(0 : ℤ)]⟩ := by
      rw [Mat.colVec, if_neg (by simp [List.isEmpty_iff])]
      simp [List.map_replicate]
    have hm1 : m + 1 - 1 = m := rfl
    rw [hm1, hM0,
      fold_row_join_cols (m + 1) (by omega) (List.range m) _ rfl (by simp)]
    refine congrArg Except.ok (Mat.eq_of rfl (by simp [superMat]; omega) ?_)
    apply List.ext_getElem (by simp [superMat])
    intro i h1 h2
    have hi : i < m + 1 := by simpa using h1
    simp only [superMat, List.getElem_map, List.getElem_range]
    have hrep : (List.replicate (m + 1) [(0 : ℤ)]).getD i [] = [(0 : ℤ)] := by
      rw [List.getD_eq_getElem _ _ (by simp; omega), List.getElem_replicate]
    rw [hrep]
    conv_rhs => rw [List.range_succ_eq_map, List.map_cons, List.map_map]
    rw [if_neg (by omega)]
    show (0 : ℤ) :: _ = (0 : ℤ) :: _
    congr 1
    apply List.map_congr_left
    intro t ht
    simp only [Function.comp]
    by_cases h : i = t
    · rw [if_pos h, if_pos (by omega)]
    · rw [if_neg h, if_neg (by omega)]

lemma zipWith_map_range {α β γ : Type} (f : α → β → γ) (g : ℕ → α) (h : ℕ → β) (n : ℕ) :
    List.zipWith f ((List.range n).map g) ((List.range n).map h) =
      (List.range n).map fun i => f (g i) (h i) := by
  apply List.ext_getElem (by simp)
  intro i h1 h2
  simp [List.getElem_zipWith]

/-- `jordan_block e n` always succeeds, with value the Jordan-block matrix
`jb e n`. -/
lemma jordan_block_eq (e : ℤ) (n : ℕ) : jordan_block e n = Except.ok (jb e n) := by
  rw [jordan_block, get_super_eq]
  show Except.ok (Mat.madd (Mat.smul e (Mat.eye n)) (superMat n)) = _
  refine congrArg Except.ok (Mat.eq_of rfl rfl ?_)
  show List.zipWith (List.zipWith (· + ·)) (Mat.smul e (Mat.eye n)).data (superMat n).data
    = (jb e n).data
  rw [Mat.smul, Mat.eye, superMat, jb]
  simp only [List.map_map]
  rw [zipWith_map_range]
  apply List.map_congr_left
  intro i hi
  simp only [Function.comp]
  rw [List.map_map, zipWith_map_range]
  apply List.map_congr_left
  intro j hj
  simp only [Function.comp]
  by_cases hji : j = i
  · rw [if_pos hji, if_pos hji, if_neg (by omega)]
    ring
  · rw [if_neg hji, if_neg hji]
    by_cases hji1 : j = i + 1
    · rw [if_pos hji1]
      ring
    · rw [if_neg hji1]
      ring

lemma jb_rows (e : ℤ) (n : ℕ) : (jb e n).rows = n := rfl

lemma jb_cols (e : ℤ) (n : ℕ) : (jb e n).cols = n := rfl

lemma jb_WF (e : ℤ) (n : ℕ) : (jb e n).WF := by
  constructor
  · simp [jb]
  · intro r hr
    rw [jb] at hr
    simp only [List.mem_map] at hr
    obtain ⟨i, _, rfl⟩ := hr
    simp [jb]

lemma jb_entry (e : ℤ) (n i j : ℕ) (hi : i < n) (hj : j < n) :
    (jb e n).entry i j = if j = i then e else if j = i + 1 then 1 else 0 := by
  have hrow : (jb e n).data.getD i [] =
      (List.range n).map fun jj => if jj = i then e else if jj = i + 1 then 1 else 0 :=
    getD_map_range _ [] hi
  rw [Mat.entry, hrow, getD_map_range _ 0 hj]

/-- Jordan blocks of different sizes are different matrices. -/
lemma jb_size_inj {e e' : ℤ} {m m' : ℕ} (h : jb e m = jb e' m') : m = m' :=
  congrArg Mat.rows h

/-- C6: for every eigenvalue `λ` and `n ≥ 1`, `jordan_block(λ, n)` returns
the `n × n` matrix with `λ` on the diagonal, `1` on the superdiagonal and
`0` elsewhere; in particular `jordan_block(λ, 1)` is `[[λ]]`. -/
theorem jordan_block_is_jordan (e : ℤ) (n : ℕ) (hn : 1 ≤ n) :
    ∃ M, jordan_block e n = Except.ok M ∧ M.rows = n ∧ M.cols = n ∧ M.WF ∧
      (∀ i j, i < n → j < n →
        M.entry i j = if j = i then e else if j = i + 1 then 1 else 0) ∧
      jordan_block e 1 = Except.ok ⟨1, 1, [[e]]⟩ := by
  refine ⟨jb e n, jordan_block_eq e n, jb_rows e n, jb_cols e n, jb_WF e n,
    fun i j hi hj => jb_entry e n i j hi hj, ?_⟩
  rw [jordan_block_eq]
  refine congrArg Except.ok (Mat.eq_of rfl rfl ?_)
  simp [jb, List.range_succ]

/-- Witness for C6 at `λ = 3`, `n = 2`. -/
theorem jordan_block_is_jordan_witness :
    1 ≤ 2 ∧ ∃ M, jordan_block 3 2 = Except.ok M ∧ M.rows = 2 ∧ M.cols = 2 ∧ M.WF ∧
      (∀ i j, i < 2 → j < 2 →
        M.entry i j = if j = i then 3 else if j = i + 1 then 1 else 0) ∧
      jordan_block 3 1 = Except.ok ⟨1, 1, [[3]]⟩ :=
  ⟨by decide, jordan_block_is_jordan 3 2 (by decide)⟩

/-! ## `direct_summand` and `many_summand` -/

lemma getD_replicate_zero (k m : ℕ) : (List.replicate k (0 : ℤ)).getD m 0 = 0 := by
  rcases lt_or_le m k with h | h
  · rw [List.getD_eq_getElem _ _ (by simpa using h), List.getElem_replicate]
  · rw [List.getD_eq_default _ _ (by simpa using h)]

/-- On square operands `direct_summand` succeeds, and its value is the
block-diagonal concatenation (the `cols` field comes out as
`A.cols + B.rows`, the column count sympy records for the upper half). -/
lemma direct_summand_eq (A B : Mat) (hA : A.rows = A.cols) (hB : B.rows = B.cols) :
    direct_summand A B = Except.ok ⟨A.rows + B.rows, A.cols + B.rows,
      List.zipWith (· ++ ·) A.data (List.replicate A.cols (List.replicate B.rows 0)) ++
      List.zipWith (· ++ ·) (List.replicate B.rows (List.replicate A.cols 0)) B.data⟩ := by
  show (A.row_join (Mat.zeros A.cols B.rows) >>= fun upper =>
    (Mat.zeros B.rows A.cols).row_join B >>= fun lower => upper.col_join lower) = _
  rw [Mat.row_join, if_neg (by simp [Mat.zeros, hA]), if_pos (by simp [Mat.zeros, hA])]
  show ((Mat.zeros B.rows A.cols).row_join B >>= fun lower =>
    Mat.col_join _ lower) = _
  rw [Mat.row_join, if_neg (by simp [Mat.zeros]), if_pos (by simp [Mat.zeros])]
  show Mat.col_join _ _ = _
  rw [Mat.col_join, if_neg (by simp [Mat.zeros, hB]), if_pos (by simp [Mat.zeros, hB])]
  rfl

/-- C3 counterexample: on the non-square input `A = [[0, 0]]` (a `1 × 2`
matrix) and `B = [[7]]`, `direct_summand` raises sympy's `ShapeError`
(`upper_zero = zeros(A.cols, B.rows)` has 2 rows while `A` has 1), instead
of returning the `2 × 3` block matrix the claim asks for. -/
theorem direct_summand_shape_error :
    direct_summand ⟨1, 2, [[0, 0]]⟩ ⟨1, 1, [[7]]⟩ = Except.error "ShapeError" := by
  decide

/-- C3 (amended to square operands): for square `A` and `B`,
`direct_summand(A, B)` returns the `(rowsA+rowsB) × (colsA+colsB)` block
matrix `[[A, 0], [0, B]]`. -/
theorem direct_summand_block (A B : Mat) (hA : A.rows = A.cols) (hB : B.rows = B.cols)
    (hwA : A.WF) (hwB : B.WF) :
    ∃ M, direct_summand A B = Except.ok M ∧
      M.rows = A.rows + B.rows ∧ M.cols = A.cols + B.cols ∧ M.WF ∧
      ∀ i j, i < A.rows + B.rows → j < A.cols + B.cols →
        M.entry i j =
          if i < A.rows then (if j < A.cols then A.entry i j else 0)
          else (if j < A.cols then 0 else B.entry (i - A.rows) (j - A.cols)) := by
  obtain ⟨hlA, hrowA⟩ := hwA
  obtain ⟨hlB, hrowB⟩ := hwB
  have hZ1len :
      (List.zipWith (· ++ ·) A.data
        (List.replicate A.cols (List.replicate B.rows (0 : ℤ)))).length = A.rows := by
    rw [List.length_zipWith, List.length_replicate, hlA, hA]
    omega
  have hZ2len :
      (List.zipWith (· ++ ·) (List.replicate B.rows (List.replicate A.cols (0 : ℤ)))
        B.data).length = B.rows := by
    rw [List.length_zipWith, List.length_replicate, hlB]
    omega
  have hZ1row : ∀ i, i < A.rows →
      (List.zipWith (· ++ ·) A.data
          (List.replicate A.cols (List.replicate B.rows (0 : ℤ)))).getD i [] =
        A.data.getD i [] ++ List.replicate B.rows 0 := by
    intro i hi
    rw [List.getD_eq_getElem _ _ (by rw [hZ1len]; exact hi), List.getElem_zipWith]
    congr 1
    · rw [List.getD_eq_getElem _ _ (by omega)]
    · rw [List.getElem_replicate]
  have hZ2row : ∀ i, i < B.rows →
      (List.zipWith (· ++ ·) (List.replicate B.rows (List.replicate A.cols (0 : ℤ)))
          B.data).getD i [] =
        List.replicate A.cols 0 ++ B.data.getD i [] := by
    intro i hi
    rw [List.getD_eq_getElem _ _ (by rw [hZ2len]; exact hi), List.getElem_zipWith]
    congr 1
    · rw [List.getElem_replicate]
    · rw [List.getD_eq_getElem _ _ (by omega)]
  have hArowlen : ∀ i, i < A.rows → (A.data.getD i []).length = A.cols := by
    intro i hi
    rw [List.getD_eq_getElem _ _ (by omega)]
    exact hrowA _ (List.getElem_mem _)
  have hBrowlen : ∀ i, i < B.rows → (B.data.getD i []).length = B.cols := by
    intro i hi
    rw [List.getD_eq_getElem _ _ (by omega)]
    exact hrowB _ (List.getElem_mem _)
  refine ⟨_, direct_summand_eq A B hA hB, rfl, by simp [hB], ?_, ?_⟩
  · constructor
    · simp only [List.length_append, hZ1len, hZ2len]
    · intro r hr
      rcases List.mem_append.1 hr with hr1 | hr1
      · obtain ⟨k, hk, rfl⟩ := List.mem_iff_getElem.1 hr1
        rw [← List.getD_eq_getElem _ [] hk, hZ1row k (by rw [hZ1len] at hk; exact hk)]
        simp only [List.length_append, List.length_replicate]
        rw [hArowlen k (by rw [hZ1len] at hk; exact hk)]
      · obtain ⟨k, hk, rfl⟩ := List.mem_iff_getElem.1 hr1
        rw [← List.getD_eq_getElem _ [] hk, hZ2row k (by rw [hZ2len] at hk; exact hk)]
        simp only [List.length_append, List.length_replicate]
        rw [hBrowlen k (by rw [hZ2len] at hk; exact hk), hB]
  · intro i j hi hj
    rw [Mat.entry]
    rcases lt_or_le i A.rows with hiA | hiA
    · rw [List.getD_append _ _ _ _ (by rw [hZ1len]; exact hiA), hZ1row i hiA, if_pos hiA]
      rcases lt_or_le j A.cols with hjA | hjA
      · rw [List.getD_append _ _ _ _ (by rw [hArowlen i hiA]; omega), if_pos hjA]
        rfl
      · rw [List.getD_append_right _ _ _ _ (by rw [hArowlen i hiA]; omega), if_neg (by omega)]
        exact getD_replicate_zero _ _
    · rw [List.getD_append_right _ _ _ _ (by rw [hZ1len]; exact hiA), hZ1len,
        hZ2row (i - A.rows) (by omega), if_neg (by omega)]
      rcases lt_or_le j A.cols with hjA | hjA
      · rw [List.getD_append _ _ _ _ (by simp only [List.length_replicate]; omega), if_pos hjA]
        exact getD_replicate_zero _ _
      · rw [List.getD_append_right _ _ _ _ (by simp only [List.length_replicate]; omega),
          if_neg (by omega)]
        simp only [List.length_replicate]
        rfl

/-- Witness for C3 (amended) at `A = [[1, 2], [3, 4]]`, `B = [[9]]`. -/
theorem direct_summand_block_witness :
    (⟨2, 2, [[1, 2], [3, 4]]⟩ : Mat).rows = (⟨2, 2, [[1, 2], [3, 4]]⟩ : Mat).cols ∧
    (⟨1, 1, [[9]]⟩ : Mat).rows = (⟨1, 1, [[9]]⟩ : Mat).cols ∧
    ∃ M, direct_summand ⟨2, 2, [[1, 2], [3, 4]]⟩ ⟨1, 1, [[9]]⟩ = Except.ok M ∧
      M.rows = 2 + 1 ∧ M.cols = 2 + 1 ∧ M.WF ∧
      ∀ i j, i < 2 + 1 → j < 2 + 1 →
        M.entry i j =
          if i < 2 then (if j < 2 then (⟨2, 2, [[1, 2], [3, 4]]⟩ : Mat).entry i j else 0)
          else (if j < 2 then 0 else (⟨1, 1, [[9]]⟩ : Mat).entry (i - 2) (j - 2)) :=
  ⟨rfl, rfl, direct_summand_block ⟨2, 2, [[1, 2], [3, 4]]⟩ ⟨1, 1, [[9]]⟩
    rfl rfl (by decide) (by decide)⟩

/-- C8: `many_summand` of any non-empty list `a :: rest` is the left fold of
`direct_summand` over `rest` started at `a`; in particular a singleton list
returns its element unchanged. -/
theorem many_summand_is_foldl :
    (∀ (a : Mat) (rest : List Mat),
      many_summand (a :: rest) = Except.map some (rest.foldlM direct_summand a)) ∧
    ∀ A : Mat, many_summand [A] = Except.ok (some A) := by
  constructor
  · intro a rest
    cases rest with
    | nil => rfl
    | cons b t =>
      show (direct_summand a b >>= fun M =>
        t.foldlM direct_summand M >>= fun M => Except.ok (some M)) =
        Except.map some (direct_summand a b >>= fun M => t.foldlM direct_summand M)
      cases direct_summand a b with
      | error s => rfl
      | ok M =>
        show (t.foldlM direct_summand M >>= fun M => Except.ok (some M)) =
          Except.map some (t.foldlM direct_summand M)
        cases t.foldlM direct_summand M with
        | error s => rfl
        | ok R => rfl
  · intro A
    rfl

/-! ## The Weyr characteristic and block counts -/

lemma length_zip_sub_tail (l : List ℤ) :
    (List.zipWith (· - ·) l l.tail).length = l.length - 1 := by
  rw [List.length_zipWith, List.length_tail]
  omega

lemma zip_sub_tail_getD (l : List ℤ) (i : ℕ) (h : i + 1 < l.length) :
    (List.zipWith (· - ·) l l.tail).getD i 0 = l.getD i 0 - l.getD (i + 1) 0 := by
  rw [List.getD_eq_getElem _ _ (by rw [length_zip_sub_tail]; omega), List.getElem_zipWith,
    List.getElem_tail, List.getD_eq_getElem _ _ (by omega), List.getD_eq_getElem _ _ (by omega)]

lemma weyr_length (r : List ℤ) (h : 1 ≤ r.length) : (weyr r).length = r.length := by
  rw [weyr, List.length_append, length_zip_sub_tail]
  simp
  omega

lemma weyr_getD_lt (r : List ℤ) (i : ℕ) (h : i + 1 < r.length) :
    (weyr r).getD i 0 = r.getD i 0 - r.getD (i + 1) 0 := by
  rw [weyr, List.getD_append _ _ _ _ (by rw [length_zip_sub_tail]; omega)]
  exact zip_sub_tail_getD r i h

lemma weyr_getD_last (r : List ℤ) (h : 1 ≤ r.length) :
    (weyr r).getD (r.length - 1) 0 = 0 := by
  rw [weyr, List.getD_append_right _ _ _ _ (by rw [length_zip_sub_tail])]
  rw [length_zip_sub_tail]
  simp

/-- C4: for a rank record `r` of length at least 2, `weyr(r)` has the same
length as `r`, its entries at positions `0 … len(r)-2` are the differences
`r[p-1] - r[p]` for `p = 1 … len(r)-1`, and its last entry is the appended
`0` sentinel. -/
theorem weyr_spec (r : List ℤ) (h : 2 ≤ r.length) :
    (weyr r).length = r.length ∧
    (∀ p, 1 ≤ p → p ≤ r.length - 1 →
      (weyr r).getD (p - 1) 0 = r.getD (p - 1) 0 - r.getD p 0) ∧
    (weyr r).getLast? = some 0 := by
  refine ⟨weyr_length r (by omega), ?_, ?_⟩
  · intro p h1 h2
    have hp : p - 1 + 1 = p := by omega
    have := weyr_getD_lt r (p - 1) (by omega)
    rw [hp] at this
    exact this
  · rw [weyr]
    exact List.getLast?_concat _

/-- Witness for C4 at `r = [2, 1, 0, 0]`. -/
theorem weyr_spec_witness :
    2 ≤ ([2, 1, 0, 0] : List ℤ).length ∧
    ((weyr [2, 1, 0, 0]).length = ([2, 1, 0, 0] : List ℤ).length ∧
    (∀ p, 1 ≤ p → p ≤ ([2, 1, 0, 0] : List ℤ).length - 1 →
      (weyr [2, 1, 0, 0]).getD (p - 1) 0 =
        ([2, 1, 0, 0] : List ℤ).getD (p - 1) 0 - ([2, 1, 0, 0] : List ℤ).getD p 0) ∧
    (weyr [2, 1, 0, 0]).getLast? = some 0) :=
  ⟨by decide, weyr_spec [2, 1, 0, 0] (by decide)⟩

/-- The loop of `create_blocks` never fails and produces, for each index of
`block_info` in reversed order, the corresponding replicated Jordan
blocks. -/
lemma foldlM_blocks (w : List ℤ) (e : ℤ) :
    ∀ (is : List ℕ) (acc : List Mat),
      is.foldlM (fun acc i =>
        if 0 < (block_info_of w).getD i 0 then
          (jordan_block e (i + 1)).map
            fun b => acc ++ List.replicate ((block_info_of w).getD i 0).toNat b
        else Except.ok acc) acc =
      Except.ok (acc ++ is.flatMap fun i =>
        if 0 < (block_info_of w).getD i 0 then
          List.replicate ((block_info_of w).getD i 0).toNat (jb e (i + 1))
        else []) := by
  intro is
  induction is with
  | nil =>
    intro acc
    simp [List.foldlM, pure, Except.pure]
  | cons i is ih =>
    intro acc
    show (if 0 < (block_info_of w).getD i 0 then
        (jordan_block e (i + 1)).map
          fun b => acc ++ List.replicate ((block_info_of w).getD i 0).toNat b
      else Except.ok acc) >>= _ = _
    rw [List.flatMap_cons]
    by_cases hc : 0 < (block_info_of w).getD i 0
    · rw [if_pos hc, if_pos hc, jordan_block_eq]
      show List.foldlM _ (acc ++ List.replicate ((block_info_of w).getD i 0).toNat (jb e (i + 1))) is = _
      rw [ih, List.append_assoc]
    · rw [if_neg hc, if_neg hc]
      show List.foldlM _ acc is = _
      rw [ih, List.nil_append]

/-- `blocks_of` in closed form. -/
lemma blocks_of_eq (w : List ℤ) (e : ℤ) :
    blocks_of w e = Except.ok
      ((List.range (block_info_of w).length).reverse.flatMap fun i =>
        if 0 < (block_info_of w).getD i 0 then
          List.replicate ((block_info_of w).getD i 0).toNat (jb e (i + 1))
        else []) := by
  rw [blocks_of, foldlM_blocks, List.nil_append]

/-- C5: for a Weyr characteristic `w` and each block size `s` with
`1 ≤ s ≤ len(w) - 1`, writing `b = w[s-1] - w[s]`, `create_blocks` creates
exactly `b` Jordan blocks `jb e s` when `b > 0` and none otherwise; a
negative `b` is silently skipped and no error is raised (`blocks_of`
always succeeds and `create_blocks` is its direct sum). -/
theorem create_blocks_counts (w : List ℤ) (e : ℤ) (s : ℕ) (hs : 1 ≤ s)
    (hs2 : s ≤ w.length - 1) :
    ∃ bs, blocks_of w e = Except.ok bs ∧
      bs.count (jb e s) =
        (if 0 < w.getD (s - 1) 0 - w.getD s 0
          then (w.getD (s - 1) 0 - w.getD s 0).toNat else 0) ∧
      create_blocks w e = many_summand bs := by
  have hwlen : 2 ≤ w.length := by omega
  have hL : (block_info_of w).length = w.length - 1 := length_zip_sub_tail w
  have hsL : s - 1 < (block_info_of w).length := by omega
  have hbi : (block_info_of w).getD (s - 1) 0 = w.getD (s - 1) 0 - w.getD s 0 := by
    have := zip_sub_tail_getD w (s - 1) (by omega)
    rw [show s - 1 + 1 = s by omega] at this
    exact this
  refine ⟨_, blocks_of_eq w e, ?_, ?_⟩
  · rw [List.count_flatMap, List.map_reverse, List.sum_reverse, sum_map_range]
    rw [Finset.sum_eq_single_of_mem (s - 1) (Finset.mem_range.2 hsL)]
    · simp only [Function.comp]
      rw [show s - 1 + 1 = s by omega, hbi]
      by_cases hc : 0 < w.getD (s - 1) 0 - w.getD s 0
      · rw [if_pos hc, if_pos hc, List.count_replicate, if_pos (by simp)]
      · rw [if_neg hc, if_neg hc]
        rfl
    · intro b _ hbs
      simp only [Function.comp]
      by_cases hc : 0 < (block_info_of w).getD b 0
      · rw [if_pos hc, List.count_replicate, if_neg ?_]
        simp only [beq_iff_eq]
        intro hjb
        exact hbs (by have := jb_size_inj hjb; omega)
      · rw [if_neg hc]
        rfl
  · show (blocks_of w e >>= many_summand) = _
    rw [blocks_of_eq w e]
    rfl

/-- Witness for C5 at `w = [2, 1, 0, 0]` (the Weyr data of a single size-2
block), size `s = 2`. -/
theorem create_blocks_counts_witness :
    (1 ≤ 2 ∧ 2 ≤ ([2, 1, 0, 0] : List ℤ).length - 1) ∧
    ∃ bs, blocks_of [2, 1, 0, 0] 7 = Except.ok bs ∧
      bs.count (jb 7 2) =
        (if 0 < ([2, 1, 0, 0] : List ℤ).getD 1 0 - ([2, 1, 0, 0] : List ℤ).getD 2 0
          then (([2, 1, 0, 0] : List ℤ).getD 1 0 - ([2, 1, 0, 0] : List ℤ).getD 2 0).toNat
          else 0) ∧
      create_blocks [2, 1, 0, 0] 7 = many_summand bs :=
  ⟨⟨by decide, by decide⟩, create_blocks_counts [2, 1, 0, 0] 7 2 (by decide) (by decide)⟩

/-- C10: `many_summand([])` is Python's bare `return`, i.e. `None`, with no
exception; hence `create_blocks` on a characteristic with no positive block
count returns `None` rather than a matrix. -/
theorem many_summand_empty_none :
    many_summand [] = Except.ok none ∧
    ∀ (w : List ℤ) (e : ℤ),
      (∀ i, i < (block_info_of w).length → (block_info_of w).getD i 0 ≤ 0) →
      create_blocks w e = Except.ok none := by
  constructor
  · rfl
  · intro w e hneg
    have hbs : blocks_of w e = Except.ok [] := by
      rw [blocks_of_eq]
      refine congrArg Except.ok (List.flatMap_eq_nil_iff.2 ?_)
      intro i hi
      rw [List.mem_reverse, List.mem_range] at hi
      rw [if_neg (by have := hneg i hi; omega)]
    show (blocks_of w e >>= many_summand) = Except.ok none
    rw [hbs]
    rfl

/-- Witness for C10 at `w = [0, 0]` (no positive counts). -/
theorem many_summand_empty_none_witness :
    (∀ i, i < (block_info_of [0, 0]).length → (block_info_of [0, 0]).getD i 0 ≤ 0) ∧
    create_blocks [0, 0] 4 = Except.ok none :=
  ⟨by decide, many_summand_empty_none.2 [0, 0] 4 (by decide)⟩

/-! ## End-to-end evaluation -/

/-- C9: on `A = [[2, 1], [0, 2]]`, whose only eigenvalue is `2` (its
characteristic polynomial is `(x - 2)^2`, so sympy's `eigenvals()`
enumeration is `[2]`), `jordan_form` returns `[[2, 1], [0, 2]]` itself.
Fuel `5` more than covers the loop, which stabilizes at `p = 3` with rank
record `[2, 1, 0, 0]`. -/
theorem jordan_form_single_block :
    jordan_form ⟨2, 2, [[2, 1], [0, 2]]⟩ [2] 5 =
      Except.ok (some ⟨2, 2, [[2, 1], [0, 2]]⟩) := by
  decide

/-! ## Dimensions of direct sums of square matrices -/

lemma foldlM_direct_summand_sq :
    ∀ (t : List Mat) (M : Mat), M.rows = M.cols → (∀ b ∈ t, b.rows = b.cols) →
      ∃ R, t.foldlM direct_summand M = Except.ok R ∧
        R.rows = M.rows + (t.map Mat.rows).sum ∧ R.rows = R.cols := by
  intro t
  induction t with
  | nil =>
    intro M hM _
    exact ⟨M, rfl, by simp, hM⟩
  | cons b t ih =>
    intro M hM hsq
    have hb : b.rows = b.cols := hsq b (by simp)
    have hds := direct_summand_eq M b hM hb
    obtain ⟨R, hR, h1, h2⟩ := ih ⟨M.rows + b.rows, M.cols + b.rows,
        List.zipWith (· ++ ·) M.data (List.replicate M.cols (List.replicate b.rows 0)) ++
        List.zipWith (· ++ ·) (List.replicate b.rows (List.replicate M.cols 0)) b.data⟩
      (by simp [hM]) (fun c hc => hsq c (by simp [hc]))
    refine ⟨R, ?_, ?_, h2⟩
    · show (direct_summand M b >>= fun x => t.foldlM direct_summand x) = Except.ok R
      rw [hds]
      exact hR
    · rw [h1]
      simp only [List.map_cons, List.sum_cons]
      omega

lemma many_summand_sq (bs : List Mat) (hne : bs ≠ [])
    (hsq : ∀ b ∈ bs, b.rows = b.cols) :
    ∃ M, many_summand bs = Except.ok (some M) ∧
      M.rows = (bs.map Mat.rows).sum ∧ M.rows = M.cols := by
  match bs, hne with
  | [m], _ =>
    exact ⟨m, rfl, by simp, hsq m (by simp)⟩
  | a :: b :: t, _ =>
    have ha : a.rows = a.cols := hsq a (by simp)
    have hb : b.rows = b.cols := hsq b (by simp)
    have hds := direct_summand_eq a b ha hb
    obtain ⟨R, hR, h1, h2⟩ := foldlM_direct_summand_sq t ⟨a.rows + b.rows, a.cols + b.rows,
        List.zipWith (· ++ ·) a.data (List.replicate a.cols (List.replicate b.rows 0)) ++
        List.zipWith (· ++ ·) (List.replicate b.rows (List.replicate a.cols 0)) b.data⟩
      (by simp [ha]) (fun c hc => hsq c (by simp [hc]))
    refine ⟨R, ?_, ?_, h2⟩
    · show (direct_summand a b >>= fun M =>
        t.foldlM direct_summand M >>= fun M => Except.ok (some M)) = _
      rw [hds]
      show (t.foldlM direct_summand _ >>= fun M => Except.ok (some M)) = _
      rw [hR]
      rfl
    · rw [h1]
      simp only [List.map_cons, List.sum_cons]
      omega

/-! ## Per-eigenvalue dimension count -/

/-- Once two consecutive ranks agree, a non-increasing convex rank sequence
stays constant. -/
lemma stop_constant (rk : ℕ → ℕ) (q : ℕ)
    (h1 : ∀ p, rk (p + 1) ≤ rk p)
    (h3 : ∀ p, 2 * rk (p + 1) ≤ rk p + rk (p + 2))
    (hq1 : 1 ≤ q) (hstop : rk q = rk (q - 1)) :
    ∀ j, q - 1 ≤ j → rk j = rk (q - 1) := by
  have key : ∀ j, rk (j + 1) = rk j → rk (j + 2) = rk (j + 1) := by
    intro j hj
    have hc := h3 j
    have hm := h1 (j + 1)
    rw [show j + 1 + 1 = j + 2 from rfl] at hm
    omega
  have step : ∀ m, rk (q - 1 + m + 1) = rk (q - 1 + m) := by
    intro m
    induction m with
    | zero =>
      rw [Nat.add_zero, Nat.sub_add_cancel hq1]
      exact hstop
    | succ m ihm =>
      show rk (q - 1 + m + 2) = rk (q - 1 + m + 1)
      exact key (q - 1 + m) ihm
  have chain : ∀ m, rk (q - 1 + m) = rk (q - 1) := by
    intro m
    induction m with
    | zero => rfl
    | succ m ihm =>
      show rk (q - 1 + m + 1) = rk (q - 1)
      rw [step m, ihm]
  intro j hj
  have := chain (j - (q - 1))
  rwa [show q - 1 + (j - (q - 1)) = j from by omega] at this

lemma sum_flatMap_nat {α : Type} (g : α → List ℕ) :
    ∀ is : List α, (is.flatMap g).sum = (is.map fun i => (g i).sum).sum := by
  intro is
  induction is with
  | nil => simp
  | cons i is ih => rw [List.flatMap_cons, List.sum_append, List.map_cons, List.sum_cons, ih]

/-- Total dimension of the blocks created from nonnegative per-size counts
`c i` (count of blocks of size `i + 1`). -/
lemma blocks_sum (c : ℕ → ℤ) (e : ℤ) (q : ℕ) (hnn : ∀ i, i < q → 0 ≤ c i) :
    ((((List.range q).reverse.flatMap fun i =>
        if 0 < c i then List.replicate (c i).toNat (jb e (i + 1)) else []).map
          Mat.rows).sum : ℤ) =
      ∑ i in Finset.range q, c i * ((i : ℤ) + 1) := by
  rw [List.map_flatMap, sum_flatMap_nat, List.map_reverse, List.sum_reverse, sum_map_range,
    Nat.cast_sum]
  apply Finset.sum_congr rfl
  intro i hi
  rw [Finset.mem_range] at hi
  show (((if 0 < c i then List.replicate (c i).toNat (jb e (i + 1)) else []).map
    Mat.rows).sum : ℤ) = c i * ((i : ℤ) + 1)
  by_cases hc : 0 < c i
  · rw [if_pos hc, List.map_replicate, List.sum_replicate, smul_eq_mul,
      show (jb e (i + 1)).rows = i + 1 from rfl, Nat.cast_mul,
      Int.toNat_of_nonneg (hnn i hi)]
    push_cast
    ring
  · rw [if_neg hc]
    have hc0 : c i = 0 := le_antisymm (by omega) (hnn i hi)
    simp [hc0]

/-- Weighted telescoping: `∑_{i<q} (F i - F (i+1))·(i+1) = ∑_{i<q} F i - q·F q`. -/
lemma telescope_sum (F : ℕ → ℤ) :
    ∀ q : ℕ, ∑ i in Finset.range q, (F i - F (i + 1)) * ((i : ℤ) + 1) =
      (∑ i in Finset.range q, F i) - (q : ℤ) * F q := by
  intro q
  induction q with
  | zero => simp
  | succ q ih =>
    rw [Finset.sum_range_succ, Finset.sum_range_succ, ih]
    push_cast
    ring

/-- For a non-increasing, convex rank trace `rk` that has just stopped at
`q` with stable value `v < n = rk 0`, `create_blocks` applied to the Weyr
characteristic of the trace `[rk 0, …, rk q]` produces a square matrix of
dimension `n - v` (the algebraic multiplicity). -/
lemma create_blocks_dims (rk : ℕ → ℕ) (e : ℤ) (n v q : ℕ)
    (h1 : ∀ p, rk (p + 1) ≤ rk p) (h2 : rk 0 = n)
    (h3 : ∀ p, 2 * rk (p + 1) ≤ rk p + rk (p + 2))
    (hq1 : 1 ≤ q) (hstop : rk q = rk (q - 1))
    (hval : rk (q - 1) = v) (hvn : v < n) :
    ∃ M, create_blocks (weyr (((List.range (q + 1)).map rk).map Int.ofNat)) e =
        Except.ok (some M) ∧ M.rows = n - v ∧ M.cols = n - v := by
  have hconst : ∀ j, q - 1 ≤ j → rk j = rk (q - 1) := stop_constant rk q h1 h3 hq1 hstop
  have hr'eq : ((List.range (q + 1)).map rk).map Int.ofNat
      = (List.range (q + 1)).map fun p => (rk p : ℤ) := by
    rw [List.map_map]
    rfl
  have hr'len : (((List.range (q + 1)).map rk).map Int.ofNat).length = q + 1 := by
    simp
  have hr'getD : ∀ p, p ≤ q →
      (((List.range (q + 1)).map rk).map Int.ofNat).getD p 0 = (rk p : ℤ) := by
    intro p hp
    rw [hr'eq, getD_map_range _ 0 (by omega)]
  have hwlen : (weyr (((List.range (q + 1)).map rk).map Int.ofNat)).length = q + 1 := by
    rw [weyr_length _ (by rw [hr'len]; omega), hr'len]
  have hrkq1 : rk (q + 1) = rk q := by
    rw [hconst (q + 1) (by omega), hstop]
  have hw : ∀ j, j ≤ q →
      (weyr (((List.range (q + 1)).map rk).map Int.ofNat)).getD j 0 =
        (rk j : ℤ) - (rk (j + 1) : ℤ) := by
    intro j hj
    rcases lt_or_eq_of_le hj with hjq | hjq
    · rw [weyr_getD_lt _ j (by rw [hr'len]; omega), hr'getD j (by omega),
        hr'getD (j + 1) (by omega)]
    · rw [hjq]
      have hlast := weyr_getD_last (((List.range (q + 1)).map rk).map Int.ofNat)
        (by rw [hr'len]; omega)
      rw [hr'len] at hlast
      rw [show q + 1 - 1 = q from rfl] at hlast
      rw [hlast, hrkq1]
      omega
  have hL : (block_info_of (weyr (((List.range (q + 1)).map rk).map Int.ofNat))).length = q := by
    rw [block_info_of, length_zip_sub_tail, hwlen]
    omega
  have hbi : ∀ i, i < q →
      (block_info_of (weyr (((List.range (q + 1)).map rk).map Int.ofNat))).getD i 0 =
        ((rk i : ℤ) - (rk (i + 1) : ℤ)) - ((rk (i + 1) : ℤ) - (rk (i + 1 + 1) : ℤ)) := by
    intro i hi
    rw [block_info_of, zip_sub_tail_getD _ i (by rw [hwlen]; omega),
      hw i (by omega), hw (i + 1) (by omega)]
  have hbinn : ∀ i, i < q →
      0 ≤ (block_info_of (weyr (((List.range (q + 1)).map rk).map Int.ofNat))).getD i 0 := by
    intro i hi
    rw [hbi i hi]
    have hc := h3 i
    rw [show i + 1 + 1 = i + 2 from rfl]
    omega
  have hbs : blocks_of (weyr (((List.range (q + 1)).map rk).map Int.ofNat)) e =
      Except.ok ((List.range q).reverse.flatMap fun i =>
        if 0 < (block_info_of (weyr (((List.range (q + 1)).map rk).map Int.ofNat))).getD i 0 then
          List.replicate
            (((block_info_of
              (weyr (((List.range (q + 1)).map rk).map Int.ofNat))).getD i 0).toNat)
            (jb e (i + 1))
        else []) := by
    rw [blocks_of_eq, hL]
  have hsum : ((((List.range q).reverse.flatMap fun i =>
      if 0 < (block_info_of (weyr (((List.range (q + 1)).map rk).map Int.ofNat))).getD i 0 then
        List.replicate
          (((block_info_of
            (weyr (((List.range (q + 1)).map rk).map Int.ofNat))).getD i 0).toNat)
          (jb e (i + 1))
      else []).map Mat.rows).sum : ℤ) = (n : ℤ) - (v : ℤ) := by
    rw [blocks_sum (fun i =>
        (block_info_of (weyr (((List.range (q + 1)).map rk).map Int.ofNat))).getD i 0)
      e q (fun i hi => hbinn i hi)]
    have hcongr : ∑ i in Finset.range q,
        (block_info_of (weyr (((List.range (q + 1)).map rk).map Int.ofNat))).getD i 0 *
          ((i : ℤ) + 1) =
        ∑ i in Finset.range q,
          (((rk i : ℤ) - (rk (i + 1) : ℤ)) - ((rk (i + 1) : ℤ) - (rk (i + 1 + 1) : ℤ))) *
            ((i : ℤ) + 1) :=
      Finset.sum_congr rfl fun i hi => by rw [hbi i (Finset.mem_range.1 hi)]
    rw [hcongr, telescope_sum (fun j => (rk j : ℤ) - (rk (j + 1) : ℤ)) q,
      Finset.sum_range_sub' (fun j => (rk j : ℤ)) q]
    have hqv : rk q = v := by rw [hstop, hval]
    rw [hrkq1, h2, hqv]
    ring
  have hne : ((List.range q).reverse.flatMap fun i =>
      if 0 < (block_info_of (weyr (((List.range (q + 1)).map rk).map Int.ofNat))).getD i 0 then
        List.replicate
          (((block_info_of
            (weyr (((List.range (q + 1)).map rk).map Int.ofNat))).getD i 0).toNat)
          (jb e (i + 1))
      else []) ≠ [] := by
    intro h0
    rw [h0] at hsum
    simp at hsum
    omega
  have hsq : ∀ b ∈ ((List.range q).reverse.flatMap fun i =>
      if 0 < (block_info_of (weyr (((List.range (q + 1)).map rk).map Int.ofNat))).getD i 0 then
        List.replicate
          (((block_info_of
            (weyr (((List.range (q + 1)).map rk).map Int.ofNat))).getD i 0).toNat)
          (jb e (i + 1))
      else []), b.rows = b.cols := by
    intro b hb
    rw [List.mem_flatMap] at hb
    obtain ⟨i, _, hbg⟩ := hb
    by_cases hc :
        0 < (block_info_of (weyr (((List.range (q + 1)).map rk).map Int.ofNat))).getD i 0
    · rw [if_pos hc, List.mem_replicate] at hbg
      rw [hbg.2]
      rfl
    · rw [if_neg hc] at hbg
      simp at hbg
  obtain ⟨M, hM, hMr, hMc⟩ := many_summand_sq _ hne hsq
  refine ⟨M, ?_, ?_, ?_⟩
  · show (blocks_of (weyr (((List.range (q + 1)).map rk).map Int.ofNat)) e >>=
      many_summand) = Except.ok (some M)
    rw [hbs]
    exact hM
  · omega
  · omega

/-! ## Assembly of `jordan_form` -/

lemma allSome_map_some : ∀ ms : List Mat, allSome (ms.map some) = some ms := by
  intro ms
  induction ms with
  | nil => rfl
  | cons m ms ih => rw [List.map_cons, allSome, ih, Option.map_some']

/-- Processing all eigenvalues: under the per-eigenvalue rank hypotheses,
`mapM` over `vals` succeeds and yields one square block matrix per
eigenvalue, of dimension its algebraic multiplicity `n - v e`. -/
lemma mapM_blocks (A : Mat) (v : ℤ → ℕ) (n : ℕ) :
    ∀ vals : List ℤ,
      (∀ e ∈ vals, ∀ p, rank_of_power A e (p + 1) ≤ rank_of_power A e p) →
      (∀ e ∈ vals, rank_of_power A e 0 = n) →
      (∀ e ∈ vals, ∀ p,
        2 * rank_of_power A e (p + 1) ≤ rank_of_power A e p + rank_of_power A e (p + 2)) →
      (∀ e ∈ vals, ∃ P, ∀ p, P ≤ p → rank_of_power A e p = v e) →
      (∀ e ∈ vals, v e < n) →
      ∃ ms : List Mat,
        vals.mapM (fun e =>
          match stabilize_ranks A e (n + 2) with
          | none => Except.error "Diverges"
          | some r => create_blocks (weyr (r.map Int.ofNat)) e) = Except.ok (ms.map some) ∧
        ms.length = vals.length ∧
        (∀ b ∈ ms, b.rows = b.cols) ∧
        ms.map Mat.rows = vals.map fun e => n - v e := by
  intro vals
  induction vals with
  | nil =>
    intro _ _ _ _ _
    exact ⟨[], by rw [List.mapM_nil]; rfl, rfl, by simp, by simp⟩
  | cons e vals ih =>
    intro h1 h2 h3 h4 h5
    have he : e ∈ e :: vals := by simp
    obtain ⟨q, hq1, hq2, hq3, hq4⟩ := exists_first_stop (rank_of_power A e) (h1 e he)
    have hq2' : q ≤ n + 1 := by rw [h2 e he] at hq2; exact hq2
    have hstab : stabilize_ranks A e (n + 2) =
        some ((List.range (q + 1)).map (rank_of_power A e)) := by
      rw [stabilize_ranks,
        show ([] : List ℕ) = (List.range 0).map (rank_of_power A e) from by simp]
      exact stab_aux_runs _ (n + 2) 0 q (by omega) (by omega) hq1 hq3
        (fun j _ hj => hq4 j hj)
    have hval : rank_of_power A e (q - 1) = v e := by
      obtain ⟨P, hP⟩ := h4 e he
      have hc := stop_constant (rank_of_power A e) q (h1 e he) (h3 e he) hq1 hq3
      have hPc := hc (max P (q - 1)) (le_max_right _ _)
      rw [← hPc]
      exact hP (max P (q - 1)) (le_max_left _ _)
    obtain ⟨M, hM, hMr, hMc⟩ := create_blocks_dims (rank_of_power A e) e n (v e) q
      (h1 e he) (h2 e he) (h3 e he) hq1 hq3 hval (h5 e he)
    obtain ⟨ms, hms, hlen, hsq, hrows⟩ := ih
      (fun x hx => h1 x (List.mem_cons_of_mem e hx))
      (fun x hx => h2 x (List.mem_cons_of_mem e hx))
      (fun x hx => h3 x (List.mem_cons_of_mem e hx))
      (fun x hx => h4 x (List.mem_cons_of_mem e hx))
      (fun x hx => h5 x (List.mem_cons_of_mem e hx))
    have hfe : (match stabilize_ranks A e (n + 2) with
        | none => Except.error "Diverges"
        | some r => create_blocks (weyr (r.map Int.ofNat)) e) = Except.ok (some M) := by
      rw [hstab]
      exact hM
    refine ⟨M :: ms, ?_, by simp [hlen], ?_, ?_⟩
    · rw [List.mapM_cons, hfe]
      show (vals.mapM (fun e =>
          match stabilize_ranks A e (n + 2) with
          | none => Except.error "Diverges"
          | some r => create_blocks (weyr (r.map Int.ofNat)) e) >>= fun bs =>
            pure (some M :: bs)) = Except.ok ((M :: ms).map some)
      rw [hms]
      rfl
    · intro b hb
      rcases List.mem_cons.1 hb with hb1 | hb1
      · rw [hb1, hMr, hMc]
      · exact hsq b hb1
    · rw [List.map_cons, List.map_cons, hrows, hMr]

/-- C1: for a square matrix `A` of dimension `n ≥ 1` whose eigenvalues the
collaborator enumerates exactly — each `e ∈ vals` has a non-increasing,
convex rank sequence starting at `n` (true of genuine matrix ranks) that
stabilizes at `n - m_e` with multiplicity `m_e ≥ 1`, and the multiplicities
sum to `n` — `jordan_form(A)` returns a square matrix of the same
dimensions as `A` (the Jordan block sizes over all eigenvalues sum to
`n`).  Fuel `n + 2` covers every stabilization loop. -/
theorem jordan_form_dims (A : Mat) (vals : List ℤ) (v : ℤ → ℕ)
    (hA : A.rows = A.cols) (hn : 1 ≤ A.rows)
    (h1 : ∀ e ∈ vals, ∀ p, rank_of_power A e (p + 1) ≤ rank_of_power A e p)
    (h2 : ∀ e ∈ vals, rank_of_power A e 0 = A.rows)
    (h3 : ∀ e ∈ vals, ∀ p,
      2 * rank_of_power A e (p + 1) ≤ rank_of_power A e p + rank_of_power A e (p + 2))
    (h4 : ∀ e ∈ vals, ∃ P, ∀ p, P ≤ p → rank_of_power A e p = v e)
    (h5 : ∀ e ∈ vals, v e < A.rows)
    (h6 : (vals.map fun e => A.rows - v e).sum = A.rows) :
    ∃ M, jordan_form A vals (A.rows + 2) = Except.ok (some M) ∧
      M.rows = A.rows ∧ M.cols = A.cols := by
  obtain ⟨ms, hms, hlen, hsq, hrows⟩ := mapM_blocks A v A.rows vals h1 h2 h3 h4 h5
  have hvals : vals ≠ [] := by
    intro h0
    rw [h0] at h6
    simp at h6
    omega
  have hred : jordan_form A vals (A.rows + 2) =
      (if (ms.map some).length > 1 then
        match allSome (ms.map some) with
        | some msx => many_summand msx
        | none => Except.error "AttributeError"
      else
        match ms.map some with
        | [b] => Except.ok b
        | _ => Except.error "IndexError") := by
    rw [jordan_form, hms]
    rfl
  rw [hred]
  match ms, hlen, hsq, hrows with
  | [], hlen, _, _ =>
    exact absurd (List.length_eq_zero.1 hlen.symm) hvals
  | [m], hlen, hsq, hrows =>
    rw [if_neg (by simp)]
    obtain ⟨e, hveq⟩ := List.length_eq_one.1 hlen.symm
    subst hveq
    simp only [List.map_cons, List.map_nil, List.sum_cons, List.sum_nil,
      Nat.add_zero] at hrows h6
    rw [List.cons.injEq] at hrows
    have hmrows : m.rows = A.rows := by rw [hrows.1, h6]
    refine ⟨m, rfl, hmrows, ?_⟩
    rw [← hsq m (by simp), hmrows]
    exact hA
  | m :: m' :: t, hlen, hsq, hrows =>
    rw [if_pos (by simp), allSome_map_some]
    obtain ⟨M, hM, hMr, hMc⟩ := many_summand_sq (m :: m' :: t) (by simp) hsq
    refine ⟨M, hM, ?_, ?_⟩
    · rw [hMr, hrows, h6]
    · rw [← hMc, hMr, hrows, h6, hA]

/-- The convexity of the rank sequence of `A5` at eigenvalue `5`. -/
lemma rank_of_power_A5_convex : ∀ p,
    2 * rank_of_power A5 5 (p + 1) ≤ rank_of_power A5 5 p + rank_of_power A5 5 (p + 2) := by
  intro p
  rcases Nat.eq_zero_or_pos p with h0 | h0
  · subst h0
    decide
  · rw [rank_of_power_A5, if_neg (by omega), rank_of_power_A5, if_neg (by omega),
      rank_of_power_A5, if_neg (by omega)]

/-- Witness for C1 at `A = [[5]]` with exact eigenvalue enumeration `[5]`
and multiplicity function `v = 0` (`5` has multiplicity `1 - 0 = 1`). -/
theorem jordan_form_dims_witness :
    (A5.rows = A5.cols ∧ 1 ≤ A5.rows ∧
      (∀ e ∈ ([5] : List ℤ), ∀ p, rank_of_power A5 e (p + 1) ≤ rank_of_power A5 e p) ∧
      (∀ e ∈ ([5] : List ℤ), rank_of_power A5 e 0 = A5.rows) ∧
      (∀ e ∈ ([5] : List ℤ), ∀ p,
        2 * rank_of_power A5 e (p + 1) ≤ rank_of_power A5 e p + rank_of_power A5 e (p + 2)) ∧
      (∀ e ∈ ([5] : List ℤ), ∃ P, ∀ p, P ≤ p → rank_of_power A5 e p = 0) ∧
      (∀ e ∈ ([5] : List ℤ), (0 : ℕ) < A5.rows) ∧
      (([5] : List ℤ).map fun _ => A5.rows - 0).sum = A5.rows) ∧
    ∃ M, jordan_form A5 [5] (A5.rows + 2) = Except.ok (some M) ∧
      M.rows = A5.rows ∧ M.cols = A5.cols := by
  have h1' : ∀ e ∈ ([5] : List ℤ), ∀ p,
      rank_of_power A5 e (p + 1) ≤ rank_of_power A5 e p := by
    intro e he p
    rw [List.mem_singleton] at he
    subst he
    exact rank_of_power_A5_mono p
  have h2' : ∀ e ∈ ([5] : List ℤ), rank_of_power A5 e 0 = A5.rows := by
    intro e he
    rw [List.mem_singleton] at he
    subst he
    decide
  have h3' : ∀ e ∈ ([5] : List ℤ), ∀ p,
      2 * rank_of_power A5 e (p + 1) ≤ rank_of_power A5 e p + rank_of_power A5 e (p + 2) := by
    intro e he p
    rw [List.mem_singleton] at he
    subst he
    exact rank_of_power_A5_convex p
  have h4' : ∀ e ∈ ([5] : List ℤ), ∃ P, ∀ p, P ≤ p → rank_of_power A5 e p = 0 := by
    intro e he
    rw [List.mem_singleton] at he
    subst he
    exact ⟨1, fun p hp => by rw [rank_of_power_A5, if_neg (by omega)]⟩
  have h5' : ∀ e ∈ ([5] : List ℤ), (0 : ℕ) < A5.rows := by
    intro e _
    decide
  have h6' : (([5] : List ℤ).map fun _ => A5.rows - 0).sum = A5.rows := by decide
  exact ⟨⟨rfl, by decide, h1', h2', h3', h4', h5', h6'⟩,
    jordan_form_dims A5 [5] (fun _ => 0) rfl (by decide) h1' h2' h3' h4' h5' h6'⟩
